import Mathlib

/-!
Shallow embedding of the mtdalgos repository (src/dijkstra/simple.rs and
src/pool/mod.rs).

Machine integers: `usize` node identifiers and counters are modelled as `Nat`
(no arithmetic on them occurs in the embedded code besides comparisons), and
`u128` costs are modelled as `Nat` with the one cost addition of the source,
`current.cost + adjacent.cost`, wrapping modulo `2 ^ 128` (`addCost`).

Fallible operations (`unwrapoption!`, `unwrapmutex!` and the `std::io::Error`
returns) are modelled with `Except`; the job closure's outcome type
`Result<(), Error>` only distinguishes success from failure at the pool, so
its error payload is modelled as `Unit`.

The `BinaryHeap` is modelled as the list of its elements: `push` conses, and
`pop` removes a greatest element with respect to the `Ord` instance of
`NodeWithCost` (the tie order among equal elements is unspecified in Rust;
the model removes the leftmost greatest element).
-/

/-- `Cost`: the wrapper type around `u128` (simple.rs line 25). -/
abbrev Cost := Nat

/-- `Node`: identifier for a node, `usize` (simple.rs line 28). -/
abbrev Node := Nat

/-- The `u128` sum `current.cost + adjacent.cost`; overflow wraps. -/
def addCost (a b : Cost) : Cost := (a + b) % 2 ^ 128

/-- A destination node and the cost to reach it (simple.rs lines 33-37). -/
structure NodeWithCost where
  node : Node
  cost : Cost
deriving DecidableEq, Repr

/-- `NodeWithCost::new` (simple.rs lines 41-43). -/
def NodeWithCost.new (node : Node) (cost : Cost) : NodeWithCost := ⟨node, cost⟩

/-- The comparison of the `Ord`/`PartialOrd` instances of `NodeWithCost`
(simple.rs lines 50-59, 63-65): a greater cost compares `lt` and a smaller
cost compares `gt`, so the max-heap floats the cheapest entry to the top. -/
def NodeWithCost.cmp (a b : NodeWithCost) : Ordering :=
  if a.cost > b.cost then .lt
  else if a.cost < b.cost then .gt
  else .eq

/-- The `BinaryHeap<NodeWithCost>` as the list of its elements. -/
abbrev Heap := List NodeWithCost

/-- `BinaryHeap::push`. -/
def heapPush (h : Heap) (x : NodeWithCost) : Heap := x :: h

/-- Helper for `heapPop`: scan for the leftmost greatest element with
respect to `NodeWithCost.cmp`, returning it and the remaining elements. -/
def popMaxAux : NodeWithCost → Heap → NodeWithCost × Heap
  | best, [] => (best, [])
  | best, x :: rest =>
    if NodeWithCost.cmp x best = .gt then
      ((popMaxAux x rest).1, best :: (popMaxAux x rest).2)
    else
      ((popMaxAux best rest).1, x :: (popMaxAux best rest).2)

/-- `BinaryHeap::pop`: remove and return a greatest element w.r.t. `Ord`,
or `none` when the heap is empty. -/
def heapPop : Heap → Option (NodeWithCost × Heap)
  | [] => none
  | x :: rest => some (popMaxAux x rest)

/-- The graph (simple.rs lines 75-77). -/
structure AdjacencyMatrix where
  matrix : List (List NodeWithCost)
deriving DecidableEq, Repr

/-- `AdjacencyMatrix::new` (simple.rs lines 81-85): `total` empty lists. -/
def AdjacencyMatrix.new (total : Node) : AdjacencyMatrix :=
  ⟨List.replicate total []⟩

/-- The errors `AdjacencyMatrix::push` can return: `ErrorKind::InvalidInput`
with the offending index in its message (simple.rs lines 98-106), and
`ErrorKind::AddrNotAvailable` (lines 113-116). -/
inductive PushErr
  | invalidInput (idx : Node)
  | addrNotAvailable
deriving DecidableEq, Repr

/-- The update loop of `AdjacencyMatrix::push` (simple.rs lines 118-128):
the first existing entry for the same destination gets cost
`max(existing.cost, to.cost)`; when none exists, the new entry is appended
(the source's parameter `from`/`to` are `fr`/`dst` here: both are keywords). -/
def pushAdjacent : List NodeWithCost → NodeWithCost → List NodeWithCost
  | [], dst => [dst]
  | x :: rest, dst =>
    if x.node = dst.node then ⟨x.node, max x.cost dst.cost⟩ :: rest
    else x :: pushAdjacent rest dst

/-- `AdjacencyMatrix::push` (simple.rs lines 96-130). -/
def AdjacencyMatrix.push (m : AdjacencyMatrix) (fr : Node) (dst : NodeWithCost) :
    Except PushErr AdjacencyMatrix :=
  if fr ≥ m.matrix.length then .error (.invalidInput fr)
  else if dst.node ≥ m.matrix.length then .error (.invalidInput dst.node)
  else if fr = dst.node then .ok m
  else
    match m.matrix[fr]? with
    | none => .error .addrNotAvailable
    | some adjacents => .ok ⟨m.matrix.set fr (pushAdjacent adjacents dst)⟩

/-- `AdjacencyMatrix::total` (simple.rs lines 133-135). -/
def AdjacencyMatrix.total (m : AdjacencyMatrix) : Node := m.matrix.length

/-- `AdjacencyMatrix::get_node` (simple.rs lines 138-140). -/
def AdjacencyMatrix.get_node (m : AdjacencyMatrix) (node : Node) :
    Option (List NodeWithCost) := m.matrix[node]?

/-- The local state of one submitted job: its `distances` vector and the
`unvisited` priority queue (simple.rs lines 191-200). -/
structure JobState where
  distances : List (Option Cost)
  unvisited : Heap
deriving DecidableEq, Repr

/-- One pass of the `for adjacent in ...` body (simple.rs lines 214-234):
look up the neighbor's entry (`unwrapoption!` fails when the index is out of
range); when visited, update it only if the new sum is smaller, then push an
entry with the (possibly unchanged) best distance; when unvisited, store the
sum and push an entry with it. -/
def relaxAdjacent (current : NodeWithCost) (st : JobState)
    (adjacent : NodeWithCost) : Except Unit JobState :=
  match st.distances[adjacent.node]? with
  | none => .error ()
  | some (some distance) =>
    if distance > addCost current.cost adjacent.cost then
      .ok ⟨st.distances.set adjacent.node
             (some (addCost current.cost adjacent.cost)),
           heapPush st.unvisited
             (NodeWithCost.new adjacent.node
               (addCost current.cost adjacent.cost))⟩
    else
      .ok ⟨st.distances,
           heapPush st.unvisited (NodeWithCost.new adjacent.node distance)⟩
  | some none =>
    .ok ⟨st.distances.set adjacent.node
           (some (addCost current.cost adjacent.cost)),
         heapPush st.unvisited
           (NodeWithCost.new adjacent.node
             (addCost current.cost adjacent.cost))⟩

/-- The whole `for adjacent in ...` loop over one adjacency list, with the
error propagation of `unwrapoption!`. -/
def relaxAll (current : NodeWithCost) (st : JobState) :
    List NodeWithCost → Except Unit JobState
  | [] => .ok st
  | a :: rest =>
    match relaxAdjacent current st a with
    | .error e => .error e
    | .ok st2 => relaxAll current st2 rest

/-- One iteration of the `while !unvisited.is_empty()` body (simple.rs lines
202-239): pop an entry; when its cost no longer equals the recorded best
distance of its node, `continue`; otherwise relax every outgoing edge of the
node (the matrix lookup `unwrapoption!` fails when the node is out of the
matrix's range). -/
def dijkstraStep (matrix : List (List NodeWithCost)) (st : JobState) :
    Except Unit JobState :=
  match heapPop st.unvisited with
  | none => .ok st
  | some (current, rest) =>
    match st.distances[current.node]? with
    | none => .error ()
    | some best =>
      if some current.cost = best then
        match matrix[current.node]? with
        | none => .error ()
        | some adjacents => relaxAll current ⟨st.distances, rest⟩ adjacents
      else
        .ok ⟨st.distances, rest⟩

/-- The `while` loop, indexed by the number of iterations allowed: `none`
means the loop is still running after `fuel` iterations, `some` means it
finished (with the job's error when an `unwrapoption!`/`unwrapmutex!`
failed). -/
def dijkstraRun (matrix : List (List NodeWithCost)) :
    Nat → JobState → Option (Except Unit JobState)
  | 0, st => if st.unvisited = [] then some (.ok st) else none
  | fuel + 1, st =>
    if st.unvisited = [] then some (.ok st)
    else
      match dijkstraStep matrix st with
      | .error e => some (.error e)
      | .ok st2 => dijkstraRun matrix fuel st2

/-- The initialization of a job (simple.rs lines 191-200): `nodes` entries,
all `None` except the source at `Some(0)` (`unwrapoption!` fails when the
source is out of range), and the queue seeded with the source at cost 0. -/
def initJobState (nodes : Nat) (source : Node) : Except Unit JobState :=
  if source < nodes then
    .ok ⟨(List.replicate nodes (none : Option Cost)).set source (some 0),
         [NodeWithCost.new source 0]⟩
  else .error ()

/-- The body of the job closure submitted by `calculate` for one source
(simple.rs lines 189-245), up to the final table insertion: `none` while the
relaxation loop has not finished within `fuel` iterations, otherwise the
`DistanceVector` it hands to the `ResultTable` (or the job's error). -/
def runJob (matrix : List (List NodeWithCost)) (nodes : Nat) (source : Node)
    (fuel : Nat) : Option (Except Unit (List (Option Cost))) :=
  match initJobState nodes source with
  | .error e => some (.error e)
  | .ok st0 => (dijkstraRun matrix fuel st0).map (fun r => r.map JobState.distances)

/-- A pool worker (pool/mod.rs lines 169-172); the thread handle carries no
observable state in the model, only the id remains. -/
structure Worker where
  id : Nat
deriving DecidableEq, Repr

/-- The error of `ThreadPool::new` (pool/mod.rs lines 60-63):
`ErrorKind::InvalidInput`. -/
inductive PoolErr
  | invalidInput
deriving DecidableEq, Repr

/-- The pool (pool/mod.rs lines 40-46): its workers and the two cumulative
counters; the channels carry no state visible to the embedded claims. -/
structure ThreadPool where
  workers : List Worker
  received_ok : Nat
  received_err : Nat
deriving DecidableEq, Repr

/-- `ThreadPool::new` (pool/mod.rs lines 58-91): fails when `threads < 1`,
otherwise builds one worker per id in `0..threads` and zeroes the counters. -/
def ThreadPool.new (threads : Nat) : Except PoolErr ThreadPool :=
  if threads < 1 then .error .invalidInput
  else .ok ⟨(List.range threads).map Worker.mk, 0, 0⟩

/-- A computed `DistanceVector` (spec §3). -/
abbrev DistanceVector := List (Option Cost)

/-- The `HashMap<Node, Vec<Option<Cost>>>` result table, modelled as an
association list queried with `List.lookup`. -/
abbrev ResultTable := List (Node × DistanceVector)

/-- The exit condition of the polling loop of `MtdDijkstra::get` (simple.rs
line 262): the loop runs while `jobs_ok < nodes && jobs_err == 0`, so the
values it last observed satisfy this disjunction. -/
def pollDone (nodes jobs_ok jobs_err : Nat) : Prop :=
  nodes ≤ jobs_ok ∨ 0 < jobs_err

/-- The part of `MtdDijkstra::get` after the polling loop (simple.rs lines
267-274), as a function of the error count the loop last observed and of the
result of locking the `ResultTable` (`none` models a poisoned lock): any
observed error yields `None`; otherwise the entry for `node` is cloned. -/
def MtdDijkstra.get (jobs_err : Nat) (lockResult : Option ResultTable)
    (node : Node) : Option DistanceVector :=
  if 0 < jobs_err then none
  else
    match lockResult with
    | none => none
    | some costs => costs.lookup node

/-- Reference (spec §8, "true shortest-path cost"): a path of total cost `c`
from `s` following stored adjacency-list edges. Modelled from the spec: the
brute-force reference the spec checks against is not part of src/. -/
inductive IsPath (matrix : List (List NodeWithCost)) : Node → Node → Cost → Prop
  | refl (s : Node) : IsPath matrix s s 0
  | step {s u : Node} {c : Cost} (h : IsPath matrix s u c) (e : NodeWithCost)
      (he : e ∈ matrix.getD u []) : IsPath matrix s e.node (c + e.cost)

/-- Reference: `c` is the cost of `d`'s shortest path from `s`. Modelled from
the spec ("the returned cost equals the true shortest-path cost"). -/
def IsShortestDist (matrix : List (List NodeWithCost)) (s d : Node)
    (c : Cost) : Prop :=
  IsPath matrix s d c ∧ ∀ c2, IsPath matrix s d c2 → c ≤ c2

/-- The two-node graph with edges `(0 → 1, 1)` and `(1 → 0, 1)`: the
adjacency lists produced by `AdjacencyMatrix::new(2)` followed by
`push(0, (1,1))` and `push(1, (0,1))` (see `cycMatrix_from_pushes`). -/
def cycMatrix : List (List NodeWithCost) := [[⟨1, 1⟩], [⟨0, 1⟩]]

/-- The job state for source 0 on `cycMatrix`, as `initJobState` builds it. -/
def cycInit : JobState := ⟨[some 0, none], [⟨0, 0⟩]⟩

/-- The state after one iteration of the loop on `cycMatrix` from source 0. -/
def cycA : JobState := ⟨[some 0, some 1], [⟨1, 1⟩]⟩

/-- The state after two iterations: the loop alternates `cycA`/`cycB`. -/
def cycB : JobState := ⟨[some 0, some 1], [⟨0, 0⟩]⟩

lemma cycMatrix_from_pushes :
    ((AdjacencyMatrix.new 2).push 0 ⟨1, 1⟩).bind (fun m => m.push 1 ⟨0, 1⟩) =
      Except.ok ⟨cycMatrix⟩ := rfl

lemma cycInit_from_init : initJobState 2 0 = Except.ok cycInit := rfl

lemma cyc_step_init : dijkstraStep cycMatrix cycInit = Except.ok cycA := rfl

lemma cyc_step_A : dijkstraStep cycMatrix cycA = Except.ok cycB := rfl

lemma cyc_step_B : dijkstraStep cycMatrix cycB = Except.ok cycA := rfl

lemma dijkstraRun_succ_of_step (matrix : List (List NodeWithCost)) (n : Nat)
    (st st2 : JobState) (hne : ¬ st.unvisited = [])
    (hstep : dijkstraStep matrix st = Except.ok st2) :
    dijkstraRun matrix (n + 1) st = dijkstraRun matrix n st2 := by
  rw [dijkstraRun, if_neg hne, hstep]

/-- On `cycMatrix` the loop alternates between `cycA` and `cycB` forever. -/
lemma cyc_run_none : ∀ n : Nat,
    dijkstraRun cycMatrix n cycA = none ∧ dijkstraRun cycMatrix n cycB = none := by
  intro n
  induction n with
  | zero => exact ⟨rfl, rfl⟩
  | succ n ih =>
    constructor
    · rw [dijkstraRun_succ_of_step cycMatrix n cycA cycB (by decide) cyc_step_A]
      exact ih.2
    · rw [dijkstraRun_succ_of_step cycMatrix n cycB cycA (by decide) cyc_step_B]
      exact ih.1

lemma cyc_loop_none : ∀ fuel : Nat,
    dijkstraRun cycMatrix fuel cycInit = none := by
  intro fuel
  cases fuel with
  | zero => rfl
  | succ n =>
    rw [dijkstraRun_succ_of_step cycMatrix n cycInit cycA (by decide) cyc_step_init]
    exact (cyc_run_none n).1

/-- Any path in `cycMatrix` from 0 to 1 costs at least 1. -/
lemma cyc_path_cost : ∀ s d c2, IsPath cycMatrix s d c2 → s = 0 → d = 1 → 1 ≤ c2 := by
  intro s d c2 hp
  induction hp with
  | refl => intro h1 h2; subst h1; exact absurd h2 (by decide)
  | step h e he ih =>
    rename_i u c
    intro _ hn
    cases u with
    | zero =>
      have he1 : e = ⟨1, 1⟩ := by simpa [cycMatrix] using he
      subst he1
      exact Nat.le_add_left 1 c
    | succ u1 =>
      cases u1 with
      | zero =>
        have he1 : e = ⟨0, 1⟩ := by simpa [cycMatrix] using he
        subst he1
        simp at hn
      | succ u2 =>
        simp [cycMatrix] at he

/-- C1: on the graph with edges `(0 → 1, 1)` and `(1 → 0, 1)` — non-negative
costs, node 1 reachable from node 0 with true shortest-path cost 1 — the job
that `calculate()` submits for source 0 never finishes its relaxation loop
(for every iteration bound it is still running), so it never produces the
DistanceVector the claim requires it to produce. -/
theorem calculate_job_diverges_on_cycle :
    IsShortestDist cycMatrix 0 1 1 ∧
    ∀ fuel : Nat, runJob cycMatrix 2 0 fuel = none := by
  refine ⟨⟨?_, ?_⟩, ?_⟩
  · exact IsPath.step (@IsPath.refl cycMatrix 0) ⟨1, 1⟩ (by decide)
  · intro c2 hp
    exact cyc_path_cost 0 1 c2 hp rfl rfl
  · intro fuel
    have h1 : runJob cycMatrix 2 0 fuel
        = (dijkstraRun cycMatrix fuel cycInit).map
            (fun r => r.map JobState.distances) := rfl
    rw [h1, cyc_loop_none fuel]
    rfl

/-- C2: the relaxation loop of the job submitted for source 0 on the
two-node graph with edges `(0 → 1, 1)` and `(1 → 0, 1)` (non-negative costs)
does not terminate: started from the state `initJobState` builds, it is
still running after every number of iterations, because the already-visited
branch pushes a fresh queue entry for every outgoing edge even when nothing
improved, so the pool's success counter can never account for this job. -/
theorem relaxation_loop_diverges :
    initJobState 2 0 = Except.ok cycInit ∧
    ∀ fuel : Nat, dijkstraRun cycMatrix fuel cycInit = none :=
  ⟨cycInit_from_init, cyc_loop_none⟩

/-- C3 counterexample: with the neighbor (node 1) already visited at best
distance 3 and candidate `addCost 0 5 = 5` not an improvement, the code
still pushes an entry — and the pushed cost is 3 (the unchanged best
distance), not the candidate. The claim says no entry is pushed in this
situation. -/
theorem relax_pushes_without_improvement :
    (⟨[some 0, some 3], []⟩ : JobState).distances[(1 : Nat)]? = some (some 3) ∧
    ¬ addCost 0 5 < 3 ∧
    relaxAdjacent ⟨0, 0⟩ ⟨[some 0, some 3], []⟩ ⟨1, 5⟩ =
      Except.ok ⟨[some 0, some 3], [⟨1, 3⟩]⟩ ∧
    (3 : Cost) ≠ addCost 0 5 :=
  ⟨rfl, by decide, rfl, by decide⟩

/-- The cost of the entry the relaxation pushes for a neighbor whose stored
entry is `d`: the neighbor's updated best distance. -/
def newBest (cand : Cost) : Option Cost → Cost
  | none => cand
  | some distance => if cand < distance then cand else distance

lemma relaxAdjacent_eq_unvisited (current : NodeWithCost) (st : JobState)
    (adjacent : NodeWithCost)
    (hd : st.distances[adjacent.node]? = some none) :
    relaxAdjacent current st adjacent =
      Except.ok ⟨st.distances.set adjacent.node
          (some (addCost current.cost adjacent.cost)),
        heapPush st.unvisited
          (NodeWithCost.new adjacent.node
            (addCost current.cost adjacent.cost))⟩ := by
  unfold relaxAdjacent
  rw [hd]

lemma relaxAdjacent_eq_visited (current : NodeWithCost) (st : JobState)
    (adjacent : NodeWithCost) (c0 : Cost)
    (hd : st.distances[adjacent.node]? = some (some c0)) :
    relaxAdjacent current st adjacent =
      if addCost current.cost adjacent.cost < c0 then
        Except.ok ⟨st.distances.set adjacent.node
            (some (addCost current.cost adjacent.cost)),
          heapPush st.unvisited
            (NodeWithCost.new adjacent.node
              (addCost current.cost adjacent.cost))⟩
      else
        Except.ok ⟨st.distances,
          heapPush st.unvisited (NodeWithCost.new adjacent.node c0)⟩ := by
  unfold relaxAdjacent
  rw [hd]

/-- C3 amended: for each outgoing edge of the extracted entry the relaxation
always pushes exactly one entry, whose cost is the neighbor's updated best
distance `newBest` (the candidate when the neighbor was unvisited or the
candidate improves, the unchanged best distance otherwise); the
DistanceVector entry is updated to that same value, and when the neighbor
was visited without improvement the DistanceVector is left unchanged even
though an entry is still pushed. -/
theorem relaxAdjacent_always_pushes (current : NodeWithCost) (st : JobState)
    (adjacent : NodeWithCost) (d : Option Cost)
    (hd : st.distances[adjacent.node]? = some d) :
    ∃ st2, relaxAdjacent current st adjacent = Except.ok st2 ∧
      st2.unvisited =
        NodeWithCost.new adjacent.node
          (newBest (addCost current.cost adjacent.cost) d) :: st.unvisited ∧
      st2.distances[adjacent.node]? =
        some (some (newBest (addCost current.cost adjacent.cost) d)) ∧
      (d = none ∨
        (∃ c0, d = some c0 ∧ addCost current.cost adjacent.cost < c0) ∨
        st2.distances = st.distances) := by
  have hlt : adjacent.node < st.distances.length :=
    (List.getElem?_eq_some.mp hd).1
  cases d with
  | none =>
    rw [relaxAdjacent_eq_unvisited current st adjacent hd]
    exact ⟨_, rfl, rfl, by simp [newBest, List.getElem?_set_self, hlt], Or.inl rfl⟩
  | some c0 =>
    rw [relaxAdjacent_eq_visited current st adjacent c0 hd]
    by_cases himp : addCost current.cost adjacent.cost < c0
    · rw [if_pos himp]
      refine ⟨_, rfl, ?_, ?_, Or.inr (Or.inl ⟨c0, rfl, himp⟩)⟩
      · simp [newBest, heapPush, if_pos himp, NodeWithCost.new]
      · simp [newBest, List.getElem?_set_self, hlt, if_pos himp]
    · rw [if_neg himp]
      refine ⟨_, rfl, ?_, ?_, Or.inr (Or.inr rfl)⟩
      · simp [newBest, heapPush, if_neg himp, NodeWithCost.new]
      · simpa [newBest, if_neg himp] using hd

/-- Witness for `relaxAdjacent_always_pushes` at a concrete input: the
unvisited neighbor 1 of current node 0. -/
theorem relaxAdjacent_always_pushes_witness :
    ∃ st2, relaxAdjacent ⟨0, 2⟩ ⟨[some 0, none], []⟩ ⟨1, 4⟩ = Except.ok st2 ∧
      st2.unvisited =
        NodeWithCost.new 1 (newBest (addCost 2 4) none) :: [] ∧
      st2.distances[(1 : Nat)]? =
        some (some (newBest (addCost 2 4) none)) ∧
      ((none : Option Cost) = none ∨
        (∃ c0, (none : Option Cost) = some c0 ∧ addCost 2 4 < c0) ∨
        st2.distances = [some 0, none]) :=
  relaxAdjacent_always_pushes ⟨0, 2⟩ ⟨[some 0, none], []⟩ ⟨1, 4⟩ none rfl

lemma pushAdjacent_no_match (l : List NodeWithCost) (dst : NodeWithCost)
    (h : ∀ e ∈ l, e.node ≠ dst.node) :
    pushAdjacent l dst = l ++ [dst] := by
  induction l with
  | nil => rfl
  | cons x rest ih =>
    rw [pushAdjacent, if_neg (h x (List.mem_cons_self x rest)), List.cons_append]
    rw [ih (fun e he => h e (List.mem_cons_of_mem x he))]

lemma pushAdjacent_match_end (l : List NodeWithCost) (b : Node) (c1 c2 : Cost)
    (h : ∀ e ∈ l, e.node ≠ b) :
    pushAdjacent (l ++ [⟨b, c1⟩]) ⟨b, c2⟩ = l ++ [⟨b, max c1 c2⟩] := by
  induction l with
  | nil => simp [pushAdjacent]
  | cons x rest ih =>
    rw [List.cons_append, pushAdjacent,
      if_neg (h x (List.mem_cons_self x rest)), List.cons_append]
    rw [ih (fun e he => h e (List.mem_cons_of_mem x he))]

lemma push_ok_set (m : AdjacencyMatrix) (fr : Node) (dst : NodeWithCost)
    (adj : List NodeWithCost)
    (hfr : fr < m.matrix.length) (hdst : dst.node < m.matrix.length)
    (hne : fr ≠ dst.node) (hadj : m.matrix[fr]? = some adj) :
    m.push fr dst = Except.ok ⟨m.matrix.set fr (pushAdjacent adj dst)⟩ := by
  unfold AdjacencyMatrix.push
  rw [if_neg (Nat.not_le.mpr hfr), if_neg (Nat.not_le.mpr hdst), if_neg hne, hadj]

/-- C4: starting from a matrix whose list for `a` holds no entry for `b`,
pushing the duplicate edge `(a, b, c1)` and then `(a, b, c2)` (with
`a ≠ b`, both indices in range) leaves exactly one entry for destination `b`
in `a`'s adjacency list, and its stored cost is `max c1 c2` — the larger of
the two costs, not the cheaper route the code's documentation promises. -/
theorem push_duplicate_keeps_max (m : AdjacencyMatrix) (a b : Node)
    (c1 c2 : Cost) (m1 m2 : AdjacencyMatrix)
    (hab : a ≠ b) (ha : a < m.total) (hb : b < m.total)
    (hnone : ∀ e ∈ m.matrix.getD a [], e.node ≠ b)
    (h1 : m.push a ⟨b, c1⟩ = Except.ok m1)
    (h2 : m1.push a ⟨b, c2⟩ = Except.ok m2) :
    (m2.matrix.getD a []).filter (fun e => e.node == b) = [⟨b, max c1 c2⟩] := by
  have ha2 : a < m.matrix.length := ha
  have hb2 : b < m.matrix.length := hb
  have hadj : m.matrix[a]? = some (m.matrix.getD a []) := by
    rw [List.getD_eq_getElem?_getD, List.getElem?_eq_getElem ha]
    rfl
  rw [push_ok_set m a ⟨b, c1⟩ (m.matrix.getD a []) ha hb hab hadj,
    pushAdjacent_no_match (m.matrix.getD a []) ⟨b, c1⟩ hnone] at h1
  cases h1
  have hadj1 : (AdjacencyMatrix.mk
        (m.matrix.set a (m.matrix.getD a [] ++ [⟨b, c1⟩]))).matrix[a]? =
      some (m.matrix.getD a [] ++ [⟨b, c1⟩]) := by
    simp [List.getElem?_set_self, ha2]
  rw [push_ok_set _ a ⟨b, c2⟩ (m.matrix.getD a [] ++ [⟨b, c1⟩])
      (by simpa using ha2) (by simpa using hb2) hab hadj1,
    pushAdjacent_match_end (m.matrix.getD a []) b c1 c2 hnone] at h2
  cases h2
  have hget : (AdjacencyMatrix.mk
        ((m.matrix.set a (m.matrix.getD a [] ++ [⟨b, c1⟩])).set a
          (m.matrix.getD a [] ++ [⟨b, max c1 c2⟩]))).matrix.getD a [] =
      m.matrix.getD a [] ++ [⟨b, max c1 c2⟩] := by
    rw [List.getD_eq_getElem?_getD]
    simp only [List.set_set]
    simp [List.getElem?_set_self, ha2]
  rw [hget, List.filter_append]
  have hl : (m.matrix.getD a []).filter (fun e => e.node == b) = [] := by
    refine List.filter_eq_nil_iff.mpr ?_
    intro e he
    simpa using hnone e he
  rw [hl]
  simp

/-- C6: `push` returns the invalid-index error exactly when `from` or the
destination index is out of range, and succeeds exactly when both are in
range — including the self-loop case `from == to.node`, which succeeds
whenever in range; the `AddrNotAvailable` branch is unreachable. -/
theorem push_invalid_index_iff (m : AdjacencyMatrix) (fr : Node)
    (dst : NodeWithCost) :
    ((∃ i, m.push fr dst = Except.error (PushErr.invalidInput i)) ↔
      m.total ≤ fr ∨ m.total ≤ dst.node) ∧
    ((∃ m2, m.push fr dst = Except.ok m2) ↔
      fr < m.total ∧ dst.node < m.total) := by
  by_cases h1 : fr ≥ m.matrix.length
  · have hp : m.push fr dst = Except.error (PushErr.invalidInput fr) := by
      unfold AdjacencyMatrix.push
      rw [if_pos h1]
    rw [hp]
    refine ⟨iff_of_true ⟨fr, rfl⟩ (Or.inl h1), iff_of_false ?_ ?_⟩
    · rintro ⟨m2, hm⟩
      exact Except.noConfusion hm
    · rintro ⟨hfr, _⟩
      exact absurd h1 (Nat.not_le.mpr hfr)
  · by_cases h2 : dst.node ≥ m.matrix.length
    · have hp : m.push fr dst = Except.error (PushErr.invalidInput dst.node) := by
        unfold AdjacencyMatrix.push
        rw [if_neg h1, if_pos h2]
      rw [hp]
      refine ⟨iff_of_true ⟨dst.node, rfl⟩ (Or.inr h2), iff_of_false ?_ ?_⟩
      · rintro ⟨m2, hm⟩
        exact Except.noConfusion hm
      · rintro ⟨_, hdst⟩
        exact absurd h2 (Nat.not_le.mpr hdst)
    · have hfr : fr < m.matrix.length := Nat.not_le.mp h1
      have hdst : dst.node < m.matrix.length := Nat.not_le.mp h2
      have hfalse1 : ¬ (m.total ≤ fr ∨ m.total ≤ dst.node) := by
        rintro (h | h)
        · exact absurd h (Nat.not_le.mpr hfr)
        · exact absurd h (Nat.not_le.mpr hdst)
      by_cases h3 : fr = dst.node
      · have hp : m.push fr dst = Except.ok m := by
          unfold AdjacencyMatrix.push
          rw [if_neg h1, if_neg h2, if_pos h3]
        rw [hp]
        refine ⟨iff_of_false ?_ hfalse1, iff_of_true ⟨m, rfl⟩ ⟨hfr, hdst⟩⟩
        rintro ⟨i, hi⟩
        exact Except.noConfusion hi
      · have hp := push_ok_set m fr dst (m.matrix[fr]) hfr hdst h3
          (List.getElem?_eq_getElem hfr)
        rw [hp]
        refine ⟨iff_of_false ?_ hfalse1, iff_of_true ⟨_, rfl⟩ ⟨hfr, hdst⟩⟩
        rintro ⟨i, hi⟩
        exact Except.noConfusion hi

/-- The invariant the spec states for the adjacency store: no adjacency list
ever holds an edge back to its own index. -/
def noSelfLoops (m : AdjacencyMatrix) : Prop :=
  ∀ i e, e ∈ m.matrix.getD i [] → e.node ≠ i

lemma getD_replicate_nil (n i : Nat) :
    (List.replicate n ([] : List NodeWithCost)).getD i [] = [] := by
  rw [List.getD_eq_getElem?_getD, List.getElem?_replicate]
  split <;> rfl

lemma noSelfLoops_new (n : Nat) : noSelfLoops (AdjacencyMatrix.new n) := by
  intro i e he
  rw [AdjacencyMatrix.new] at he
  rw [getD_replicate_nil] at he
  cases he

lemma pushAdjacent_node_mem (l : List NodeWithCost) (dst e : NodeWithCost)
    (he : e ∈ pushAdjacent l dst) : e ∈ l ∨ e.node = dst.node := by
  induction l with
  | nil =>
    rw [pushAdjacent] at he
    right
    rw [List.mem_singleton.mp he]
  | cons x rest ih =>
    rw [pushAdjacent] at he
    by_cases hx : x.node = dst.node
    · rw [if_pos hx] at he
      rcases List.mem_cons.mp he with he1 | he2
      · right
        rw [he1, ← hx]
      · exact Or.inl (List.mem_cons_of_mem x he2)
    · rw [if_neg hx] at he
      rcases List.mem_cons.mp he with he1 | he2
      · exact Or.inl (he1 ▸ List.mem_cons_self x rest)
      · rcases ih he2 with h | h
        · exact Or.inl (List.mem_cons_of_mem x h)
        · exact Or.inr h

lemma noSelfLoops_push (m m2 : AdjacencyMatrix) (fr : Node)
    (dst : NodeWithCost) (hm : noSelfLoops m)
    (hp : m.push fr dst = Except.ok m2) : noSelfLoops m2 := by
  unfold AdjacencyMatrix.push at hp
  by_cases h1 : fr ≥ m.matrix.length
  · rw [if_pos h1] at hp
    exact Except.noConfusion hp
  · rw [if_neg h1] at hp
    by_cases h2 : dst.node ≥ m.matrix.length
    · rw [if_pos h2] at hp
      exact Except.noConfusion hp
    · rw [if_neg h2] at hp
      by_cases h3 : fr = dst.node
      · rw [if_pos h3] at hp
        cases hp
        exact hm
      · rw [if_neg h3] at hp
        have hfr : fr < m.matrix.length := Nat.not_le.mp h1
        rw [List.getElem?_eq_getElem hfr] at hp
        cases hp
        intro i e he
        by_cases hi : i = fr
        · subst hi
          have hgd : (m.matrix.set i (pushAdjacent (m.matrix[i]) dst)).getD i [] =
              pushAdjacent (m.matrix[i]) dst := by
            rw [List.getD_eq_getElem?_getD]
            simp [List.getElem?_set_self, hfr]
          rw [hgd] at he
          rcases pushAdjacent_node_mem _ dst e he with h | h
          · refine hm i e ?_
            rw [List.getD_eq_getElem?_getD, List.getElem?_eq_getElem hfr]
            exact h
          · rw [h]
            exact fun hcontra => h3 hcontra.symm
        · have hgd : (m.matrix.set fr (pushAdjacent (m.matrix[fr]) dst)).getD i [] =
              m.matrix.getD i [] := by
            rw [List.getD_eq_getElem?_getD, List.getD_eq_getElem?_getD,
              List.getElem?_set_ne (fun hcon => hi hcon.symm)]
          rw [hgd] at he
          exact hm i e he

/-- C7: pushing a self-loop `from == to` on an in-range index returns `Ok`
and leaves the whole adjacency store (hence the length of `from`'s list)
unchanged; moreover no self-loop edge is ever stored: the fresh store has
none and every successful `push` preserves that invariant. -/
theorem push_self_loop_noop (n : Nat) (m m2 : AdjacencyMatrix) (fr : Node)
    (c : Cost) (dst : NodeWithCost)
    (h : fr < m.total) (hm : noSelfLoops m)
    (hp : m.push fr dst = Except.ok m2) :
    m.push fr ⟨fr, c⟩ = Except.ok m ∧ noSelfLoops m2 ∧
      noSelfLoops (AdjacencyMatrix.new n) := by
  refine ⟨?_, noSelfLoops_push m m2 fr dst hm hp, noSelfLoops_new n⟩
  have h2 : fr < m.matrix.length := h
  unfold AdjacencyMatrix.push
  rw [if_neg (Nat.not_le.mpr h2), if_neg (Nat.not_le.mpr h2), if_pos rfl]

/-- Witness for `push_duplicate_keeps_max`: pushing `(0,1,3)` then `(0,1,7)`
into a fresh two-node store leaves the single entry `(1, 7)`. -/
theorem push_duplicate_keeps_max_witness :
    ((⟨[[⟨1, 7⟩], []]⟩ : AdjacencyMatrix).matrix.getD 0 []).filter
      (fun e => e.node == 1) = [⟨1, max 3 7⟩] :=
  push_duplicate_keeps_max (AdjacencyMatrix.new 2) 0 1 3 7
    ⟨[[⟨1, 3⟩], []]⟩ ⟨[[⟨1, 7⟩], []]⟩
    (by decide) (by decide) (by decide) (by decide) rfl rfl

/-- Witness for `push_self_loop_noop`: a self-loop push at node 0 of a fresh
two-node store is a no-op, and pushing `(0,1,3)` keeps the store free of
self-loops. -/
theorem push_self_loop_noop_witness :
    (AdjacencyMatrix.new 2).push 0 ⟨0, 5⟩ = Except.ok (AdjacencyMatrix.new 2) ∧
      noSelfLoops ⟨[[⟨1, 3⟩], []]⟩ ∧ noSelfLoops (AdjacencyMatrix.new 1) :=
  push_self_loop_noop 1 (AdjacencyMatrix.new 2) ⟨[[⟨1, 3⟩], []]⟩ 0 5 ⟨1, 3⟩
    (by decide) (noSelfLoops_new 2) rfl

/-- C5: the coarse batch policy of `get`: whenever the last observed
cumulative error count is positive, `get` returns `None` for every queried
source — even one whose own job succeeded and whose DistanceVector sits in
the table; when instead all `node_count` jobs succeeded (no error observed)
and the ResultTable lock is acquired, `get` returns the copy of the stored
DistanceVector for the source. -/
theorem get_global_failure_policy (nodes jobs_ok jobs_err : Nat)
    (lockR : Option ResultTable) (t : ResultTable) (node : Node)
    (v : DistanceVector)
    (hdone : pollDone nodes jobs_ok jobs_err) :
    (0 < jobs_err → MtdDijkstra.get jobs_err lockR node = none) ∧
    (jobs_err = 0 → jobs_ok = nodes → lockR = some t →
      t.lookup node = some v →
      MtdDijkstra.get jobs_err lockR node = some v) := by
  constructor
  · intro he
    unfold MtdDijkstra.get
    rw [if_pos he]
  · intro he _ hl hv
    subst he
    unfold MtdDijkstra.get
    rw [if_neg (by decide), hl]
    exact hv

/-- Witness for `get_global_failure_policy`: two jobs, both succeeded, the
table holds source 0, and `get` returns its vector; with one observed error
`get` returns `None` even though the entry is present. -/
theorem get_global_failure_policy_witness :
    ((0 < 0 → MtdDijkstra.get 0 (some [(0, [some 0, some 1])]) 0 = none) ∧
      (0 = 0 → 2 = 2 → some [(0, [some 0, some 1])] = some [(0, [some 0, some 1])] →
        ([(0, [some 0, some 1])] : ResultTable).lookup 0 = some [some 0, some 1] →
        MtdDijkstra.get 0 (some [(0, [some 0, some 1])]) 0 = some [some 0, some 1])) ∧
    MtdDijkstra.get 1 (some [(0, [some 0, some 1])]) 0 = none :=
  ⟨get_global_failure_policy 2 2 0 (some [(0, [some 0, some 1])])
      [(0, [some 0, some 1])] 0 [some 0, some 1] (Or.inl (by decide)),
    (get_global_failure_policy 2 2 1 (some [(0, [some 0, some 1])])
      [(0, [some 0, some 1])] 0 [some 0, some 1] (Or.inr (by decide))).1
      (by decide)⟩

/-- C9: `ThreadPool::new(threads)` fails with the invalid-argument error
exactly when `threads < 1`; on success the pool holds exactly `threads`
workers. -/
theorem threadPool_new_spec (threads : Nat) :
    (ThreadPool.new threads = Except.error PoolErr.invalidInput ↔
      threads < 1) ∧
    ∀ p, ThreadPool.new threads = Except.ok p → p.workers.length = threads := by
  constructor
  · constructor
    · intro h
      by_contra hge
      unfold ThreadPool.new at h
      rw [if_neg hge] at h
      exact Except.noConfusion h
    · intro h
      unfold ThreadPool.new
      rw [if_pos h]
  · intro p hp
    unfold ThreadPool.new at hp
    by_cases h : threads < 1
    · rw [if_pos h] at hp
      exact Except.noConfusion hp
    · rw [if_neg h] at hp
      cases hp
      simp

/-- Witness for `threadPool_new_spec`: `new 0` fails, `new 2` yields two
workers. -/
theorem threadPool_new_spec_witness :
    ThreadPool.new 0 = Except.error PoolErr.invalidInput ∧
    (⟨[⟨0⟩, ⟨1⟩], 0, 0⟩ : ThreadPool).workers.length = 2 :=
  ⟨(threadPool_new_spec 0).1.mpr (by decide),
    (threadPool_new_spec 2).2 ⟨[⟨0⟩, ⟨1⟩], 0, 0⟩ rfl⟩

lemma cmp_cases (a b : NodeWithCost) :
    (NodeWithCost.cmp a b = .gt ↔ a.cost < b.cost) ∧
    (NodeWithCost.cmp a b = .lt ↔ b.cost < a.cost) ∧
    (NodeWithCost.cmp a b = .eq ↔ a.cost = b.cost) := by
  unfold NodeWithCost.cmp
  rcases Nat.lt_trichotomy a.cost b.cost with h | h | h
  · rw [if_neg (Nat.lt_asymm h), if_pos h]
    exact ⟨iff_of_true rfl h, iff_of_false (by decide) (Nat.lt_asymm h),
      iff_of_false (by decide) (Nat.ne_of_lt h)⟩
  · have h1 : ¬ b.cost < a.cost := by rw [h]; exact Nat.lt_irrefl _
    have h2 : ¬ a.cost < b.cost := by rw [h]; exact Nat.lt_irrefl _
    rw [if_neg h1, if_neg h2]
    exact ⟨iff_of_false (by decide) h2, iff_of_false (by decide) h1,
      iff_of_true rfl h⟩
  · rw [if_pos h]
    exact ⟨iff_of_false (by decide) (Nat.lt_asymm h), iff_of_true rfl h,
      iff_of_false (by decide) (Ne.symm (Nat.ne_of_lt h))⟩

lemma popMaxAux_min (rest : Heap) : ∀ best : NodeWithCost,
    (popMaxAux best rest).1.cost ≤ best.cost ∧
    ∀ y ∈ rest, (popMaxAux best rest).1.cost ≤ y.cost := by
  induction rest with
  | nil =>
    intro best
    exact ⟨Nat.le_refl _, fun y hy => absurd hy (List.not_mem_nil y)⟩
  | cons x rest2 ih =>
    intro best
    rw [popMaxAux]
    by_cases hx : NodeWithCost.cmp x best = .gt
    · rw [if_pos hx]
      have hxb : x.cost < best.cost := (cmp_cases x best).1.mp hx
      constructor
      · show (popMaxAux x rest2).1.cost ≤ best.cost
        exact Nat.le_of_lt (Nat.lt_of_le_of_lt (ih x).1 hxb)
      · intro y hy
        show (popMaxAux x rest2).1.cost ≤ y.cost
        rcases List.mem_cons.mp hy with h | h
        · rw [h]
          exact (ih x).1
        · exact (ih x).2 y h
    · rw [if_neg hx]
      have hbx : ¬ x.cost < best.cost := fun hc => hx ((cmp_cases x best).1.mpr hc)
      constructor
      · show (popMaxAux best rest2).1.cost ≤ best.cost
        exact (ih best).1
      · intro y hy
        show (popMaxAux best rest2).1.cost ≤ y.cost
        rcases List.mem_cons.mp hy with h | h
        · rw [h]
          exact Nat.le_trans (ih best).1 (Nat.le_of_not_lt hbx)
        · exact (ih best).2 y h

/-- C8: the ordering on `NodeWithCost` is the reverse of the natural order
on costs — `cmp a b` is `gt` iff `a.cost < b.cost`, `lt` iff
`a.cost > b.cost`, `eq` iff the costs are equal — and consequently popping
the max-heap built over this ordering extracts an entry whose cost is
minimal among the entries in the heap. -/
theorem cmp_reversed_pop_min (a b : NodeWithCost) (hp : Heap)
    (x y : NodeWithCost) (rest : Heap)
    (hpop : heapPop hp = some (x, rest)) (hy : y ∈ hp) :
    (NodeWithCost.cmp a b = Ordering.gt ↔ a.cost < b.cost) ∧
    (NodeWithCost.cmp a b = Ordering.lt ↔ b.cost < a.cost) ∧
    (NodeWithCost.cmp a b = Ordering.eq ↔ a.cost = b.cost) ∧
    x.cost ≤ y.cost := by
  obtain ⟨hgt, hlt, heq⟩ := cmp_cases a b
  refine ⟨hgt, hlt, heq, ?_⟩
  cases hp with
  | nil => exact absurd hy (List.not_mem_nil y)
  | cons z t =>
    rw [heapPop] at hpop
    have hx : (popMaxAux z t).1 = x := by
      rw [Option.some.inj hpop]
    rw [← hx]
    rcases List.mem_cons.mp hy with h | h
    · rw [h]
      exact (popMaxAux_min t z).1
    · exact (popMaxAux_min t z).2 y h

/-- Witness for `cmp_reversed_pop_min`: comparing costs 1 and 2, and popping
the minimum (cost 3) out of the heap `[(0,5), (1,3)]`. -/
theorem cmp_reversed_pop_min_witness :
    (NodeWithCost.cmp ⟨0, 1⟩ ⟨1, 2⟩ = Ordering.gt ↔ (1 : Cost) < 2) ∧
    (NodeWithCost.cmp ⟨0, 1⟩ ⟨1, 2⟩ = Ordering.lt ↔ (2 : Cost) < 1) ∧
    (NodeWithCost.cmp ⟨0, 1⟩ ⟨1, 2⟩ = Ordering.eq ↔ (1 : Cost) = 2) ∧
    (3 : Cost) ≤ 5 :=
  cmp_reversed_pop_min ⟨0, 1⟩ ⟨1, 2⟩ [⟨0, 5⟩, ⟨1, 3⟩] ⟨1, 3⟩ ⟨0, 5⟩ [⟨0, 5⟩]
    rfl (by decide)

/-- One observable change of a DistanceVector entry across the run: either
unchanged, or a first visit (`None` to `Some`), or a strict improvement
(`Some c` to `Some cp` with `cp < c`); an entry never reverts to `None`. -/
def entryStep (o n : Option Cost) : Prop :=
  n = o ∨ (o = none ∧ n.isSome = true) ∨
    ∃ c cp, o = some c ∧ n = some cp ∧ cp < c

lemma entryStep_refl (o : Option Cost) : entryStep o o := Or.inl rfl

lemma entryStep_trans (a b c : Option Cost) (h1 : entryStep a b)
    (h2 : entryStep b c) : entryStep a c := by
  rcases h1 with h1 | ⟨ha, hb⟩ | ⟨x, y, hax, hbx, hyx⟩
  · rw [h1] at h2
    exact h2
  · rcases h2 with h2 | ⟨hb2, hc⟩ | ⟨x, y, hbx, hcy, hyx⟩
    · rw [h2]
      exact Or.inr (Or.inl ⟨ha, hb⟩)
    · rw [hb2] at hb
      exact absurd hb (by decide)
    · exact Or.inr (Or.inl ⟨ha, by rw [hcy]; rfl⟩)
  · rcases h2 with h2 | ⟨hb2, hc⟩ | ⟨x2, y2, hbx2, hcy2, hy2x2⟩
    · rw [h2]
      exact Or.inr (Or.inr ⟨x, y, hax, hbx, hyx⟩)
    · rw [hb2] at hbx
      exact Option.noConfusion hbx
    · rw [hbx] at hbx2
      have hx2 : x2 = y := Option.some.inj hbx2.symm
      exact Or.inr (Or.inr ⟨x, y2, hax, hcy2,
        Nat.lt_trans (hx2 ▸ hy2x2) hyx⟩)

/-- `entryStep` cannot leave `some 0`: costs are unsigned, nothing is below 0. -/
lemma entryStep_zero (n : Option Cost) (h : entryStep (some 0) n) :
    n = some 0 := by
  rcases h with h | ⟨h0, _⟩ | ⟨c, cp, hc, hcp, hlt⟩
  · exact h
  · exact Option.noConfusion h0
  · have : c = 0 := Option.some.inj hc.symm
    subst this
    exact absurd hlt (Nat.not_lt_zero cp)

lemma forall2_entryStep_refl (l : List (Option Cost)) :
    List.Forall₂ entryStep l l := by
  induction l with
  | nil => exact List.Forall₂.nil
  | cons x t ih => exact List.Forall₂.cons (entryStep_refl x) ih

lemma forall2_entryStep_trans (l1 l2 l3 : List (Option Cost))
    (h1 : List.Forall₂ entryStep l1 l2)
    (h2 : List.Forall₂ entryStep l2 l3) :
    List.Forall₂ entryStep l1 l3 := by
  revert h2
  induction h1 generalizing l3 with
  | nil =>
    intro h2
    cases h2
    exact List.Forall₂.nil
  | cons hx ht ih =>
    intro h2
    cases h2 with
    | cons hy hu => exact List.Forall₂.cons (entryStep_trans _ _ _ hx hy) (ih _ hu)

lemma forall2_entryStep_set (l : List (Option Cost)) (i : Nat)
    (o v : Option Cost) (hi : l[i]? = some o) (hv : entryStep o v) :
    List.Forall₂ entryStep l (l.set i v) := by
  induction l generalizing i with
  | nil => exact absurd hi (by simp)
  | cons x t ih =>
    cases i with
    | zero =>
      have hx : x = o := by
        rw [List.getElem?_cons_zero] at hi
        exact Option.some.inj hi
      rw [List.set_cons_zero]
      exact List.Forall₂.cons (hx ▸ hv) (forall2_entryStep_refl t)
    | succ j =>
      rw [List.getElem?_cons_succ] at hi
      rw [List.set_cons_succ]
      exact List.Forall₂.cons (entryStep_refl x) (ih j hi)

lemma forall2_entryStep_getElem (l1 l2 : List (Option Cost))
    (h : List.Forall₂ entryStep l1 l2) (i : Nat) (a : Option Cost)
    (ha : l1[i]? = some a) : ∃ b, l2[i]? = some b ∧ entryStep a b := by
  induction h generalizing i with
  | nil => exact absurd ha (by simp)
  | @cons x y t1 t2 hx ht ih =>
    cases i with
    | zero =>
      rw [List.getElem?_cons_zero] at ha
      exact ⟨y, by rw [List.getElem?_cons_zero], (Option.some.inj ha) ▸ hx⟩
    | succ j =>
      rw [List.getElem?_cons_succ] at ha
      obtain ⟨b, hb, hab⟩ := ih j ha
      exact ⟨b, by rw [List.getElem?_cons_succ]; exact hb, hab⟩

lemma relaxAdjacent_monotone (current : NodeWithCost) (st st2 : JobState)
    (adjacent : NodeWithCost)
    (h : relaxAdjacent current st adjacent = Except.ok st2) :
    List.Forall₂ entryStep st.distances st2.distances := by
  cases hd : st.distances[adjacent.node]? with
  | none =>
    unfold relaxAdjacent at h
    rw [hd] at h
    exact Except.noConfusion h
  | some d =>
    cases d with
    | none =>
      rw [relaxAdjacent_eq_unvisited current st adjacent hd] at h
      cases h
      exact forall2_entryStep_set _ _ _ _ hd (Or.inr (Or.inl ⟨rfl, rfl⟩))
    | some c0 =>
      rw [relaxAdjacent_eq_visited current st adjacent c0 hd] at h
      by_cases himp : addCost current.cost adjacent.cost < c0
      · rw [if_pos himp] at h
        cases h
        exact forall2_entryStep_set _ _ _ _ hd
          (Or.inr (Or.inr ⟨c0, _, rfl, rfl, himp⟩))
      · rw [if_neg himp] at h
        cases h
        exact forall2_entryStep_refl _

lemma relaxAll_monotone (current : NodeWithCost)
    (adjacents : List NodeWithCost) :
    ∀ st st2, relaxAll current st adjacents = Except.ok st2 →
      List.Forall₂ entryStep st.distances st2.distances := by
  induction adjacents with
  | nil =>
    intro st st2 h
    rw [relaxAll] at h
    cases h
    exact forall2_entryStep_refl _
  | cons a rest ih =>
    intro st st2 h
    rw [relaxAll] at h
    cases hra : relaxAdjacent current st a with
    | error e =>
      rw [hra] at h
      exact Except.noConfusion h
    | ok stm =>
      rw [hra] at h
      exact forall2_entryStep_trans _ _ _
        (relaxAdjacent_monotone current st stm a hra) (ih stm st2 h)

lemma dijkstraStep_monotone (matrix : List (List NodeWithCost))
    (st st2 : JobState) (h : dijkstraStep matrix st = Except.ok st2) :
    List.Forall₂ entryStep st.distances st2.distances := by
  unfold dijkstraStep at h
  split at h
  · cases h
    exact forall2_entryStep_refl _
  · split at h
    · exact Except.noConfusion h
    · split at h
      · split at h
        · exact Except.noConfusion h
        · have h2 := relaxAll_monotone _ _ _ st2 h
          exact h2
      · cases h
        exact forall2_entryStep_refl _

lemma dijkstraRun_monotone (matrix : List (List NodeWithCost)) :
    ∀ (fuel : Nat) (st st2 : JobState),
      dijkstraRun matrix fuel st = some (Except.ok st2) →
      List.Forall₂ entryStep st.distances st2.distances := by
  intro fuel
  induction fuel with
  | zero =>
    intro st st2 h
    rw [dijkstraRun] at h
    split at h
    · cases Option.some.inj h
      exact forall2_entryStep_refl _
    · exact Option.noConfusion h
  | succ n ih =>
    intro st st2 h
    rw [dijkstraRun] at h
    split at h
    · cases Option.some.inj h
      exact forall2_entryStep_refl _
    · split at h
      · exact absurd (Option.some.inj h) (by simp)
      · rename_i stm hstep
        exact forall2_entryStep_trans _ _ _
          (dijkstraStep_monotone matrix st stm hstep) (ih stm st2 h)

/-- C10: over any segment of a job's relaxation loop that runs to
completion, every DistanceVector entry only ever moves from `None` to
`Some c` or from `Some c` down to a strictly smaller `Some cp` (never back
to `None`), and in particular an entry standing at `Some 0` — as the source
node's own entry does from initialization onward — still stands at `Some 0`
in the final vector handed to the ResultTable. -/
theorem distances_monotone (matrix : List (List NodeWithCost)) (fuel : Nat)
    (st st2 : JobState) (source : Node)
    (hrun : dijkstraRun matrix fuel st = some (Except.ok st2))
    (hsrc : st.distances[source]? = some (some 0)) :
    List.Forall₂ entryStep st.distances st2.distances ∧
    st2.distances[source]? = some (some 0) := by
  have hall := dijkstraRun_monotone matrix fuel st st2 hrun
  refine ⟨hall, ?_⟩
  obtain ⟨b, hb, hstep⟩ := forall2_entryStep_getElem _ _ hall source (some 0) hsrc
  rw [hb, entryStep_zero b hstep]

/-- Witness for `distances_monotone`: the one-node graph with no edges,
where a single iteration empties the queue and the source entry stays 0. -/
theorem distances_monotone_witness :
    List.Forall₂ entryStep
      (⟨[some 0], [⟨0, 0⟩]⟩ : JobState).distances
      (⟨[some 0], []⟩ : JobState).distances ∧
    (⟨[some 0], []⟩ : JobState).distances[(0 : Nat)]? = some (some 0) :=
  distances_monotone [[]] 1 ⟨[some 0], [⟨0, 0⟩]⟩ ⟨[some 0], []⟩ 0 rfl rfl

/-- The demonstration graph of the repository's entry point: 5 nodes with
edges (0→1,1), (1→2,1), (2→3,2), (3→4,1), (2→4,6). -/
def demoMatrix : List (List NodeWithCost) :=
  [[⟨1, 1⟩], [⟨2, 1⟩], [⟨3, 2⟩, ⟨4, 6⟩], [⟨4, 1⟩], []]

/-- On the demonstration graph — a DAG, so the loop does terminate — the job
for source 0 computes the DistanceVector `[0, 1, 2, 4, 5]` that the spec's
concrete scenario expects. -/
lemma demo_run :
    runJob demoMatrix 5 0 10 =
      some (Except.ok [some 0, some 1, some 2, some 4, some 5]) := rfl
